import Mathlib

/-!
Verification of the rule store and request-processing engine of the
multithreaded firewall server (`src/client.c`).

The server's pure core is shallowly embedded here:
  * the character-level parsers (`atoi`, glibc-style `inet_pton` for IPv4,
    `sscanf`-style token and integer scanning),
  * the range validators and matchers (`is_valid_ip`, `is_valid_ip_range`,
    `is_valid_port_range`, `is_within_ip_range`, `is_within_port_range`),
  * the rule-store operations (`add_rule`, `check_connection`,
    `delete_rule`, `list_rules`, `list_requests`),
  * the request engine (`process_request`) and the request log.

Strings are modelled as Lean `String` (a list of characters); C ints are
modelled as `Int` (the C code never exercises `int` overflow on the inputs
the protocol produces, apart from undefined-behaviour corners noted below);
the 32-bit host-order address values are `Nat` (each parsed octet is
`≤ 255`, so values stay below `2^32` and `ntohl` composition is the plain
base-256 value).

Two places in the C code read indeterminate (uninitialised) values when an
`sscanf` conversion fails while its result is still used
(`is_valid_ip_range` / `is_within_ip_range` when `%63[^-]` or the literal
`-` fails to match, and `is_valid_port_range` / `is_within_port_range` when
`%d-%d` matches fewer than two integers).  The model determinises those
corners to the rejecting branch; each such spot is marked with a comment.
-/

namespace Firewall

/-- C `isspace` in the POSIX/C locale: space, tab, newline, vertical tab,
form feed, carriage return.  (Lean's `Char.isWhitespace` omits `\v`/`\f`,
so we define the exact C set.) -/
def isSpace (c : Char) : Bool :=
  c = ' ' || c = '\t' || c = '\n' || c = '\x0b' || c = '\x0c' || c = '\r'

/-- Value of a run of decimal digits, most significant first
(`digitsToNat [] = 0`, matching `atoi` on non-numeric input). -/
def digitsToNat (cs : List Char) : Nat :=
  cs.foldl (fun a c => a * 10 + (c.toNat - 48)) 0

/-- C `atoi`: skip leading whitespace, optional sign, then the longest run
of digits; non-numeric input yields 0.  (C `atoi` overflows `int` on huge
numerals — undefined behaviour the protocol claims never exercise; the
model keeps the exact integer.) -/
def atoi (s : String) : Int :=
  match s.data.dropWhile isSpace with
  | [] => 0
  | c :: rest =>
    if c = '-' then - (digitsToNat (rest.takeWhile Char.isDigit) : Int)
    else if c = '+' then (digitsToNat (rest.takeWhile Char.isDigit) : Int)
    else (digitsToNat ((c :: rest).takeWhile Char.isDigit) : Int)

/-- glibc `inet_pton4`, character by character.  State: `cur` is the value
of the octet being read, `sawDigit` whether it has at least one digit,
`acc` the completed octets.  Rules: only digits and dots; no octet value
above 255; no leading zeros (a second digit is rejected while the
accumulated value is 0); a dot needs a preceding digit and at most three
completed octets (glibc counts started octets and rejects a fifth); the
string must end with exactly four octets. -/
def pton4Aux : List Char → Nat → Bool → List Nat → Option (List Nat)
  | [], cur, sawDigit, acc =>
      if sawDigit && acc.length == 3 then some (acc ++ [cur]) else none
  | c :: rest, cur, sawDigit, acc =>
      if c.isDigit then
        if sawDigit && cur == 0 then none
        else if cur * 10 + (c.toNat - 48) > 255 then none
        else pton4Aux rest (cur * 10 + (c.toNat - 48)) true acc
      else if c == '.' && sawDigit && decide (acc.length < 3) then
        pton4Aux rest 0 false (acc ++ [cur])
      else none

/-- `inet_pton(AF_INET, s, ·)` followed by `ntohl`: the 32-bit host-order
value of a dotted-quad IPv4 address, or `none` if the string is not one.
This is the composition the C code names `ip_to_integer`. -/
def parseIPv4 (s : String) : Option Nat :=
  (pton4Aux s.data 0 false []).map (List.foldl (fun n o => n * 256 + o) 0)

/-- `is_valid_ip`: `inet_pton(AF_INET, ip, ·) != 0` (for `AF_INET` the
only outcomes are 1 = parsed and 0 = malformed). -/
def is_valid_ip (s : String) : Bool :=
  (parseIPv4 s).isSome

/-- `sscanf(range, "%63[^-]-%63s", ip_start, ip_end)`: up to 63 characters
that are not `-`, then the literal `-`, then whitespace-skip and up to 63
non-whitespace characters.  `none` models a conversion count below 2; in
the C code the corresponding `char` buffers then hold indeterminate bytes
that are still passed to `is_valid_ip` / `ip_to_integer` — the model
determinises that undefined-behaviour corner to the rejecting branch. -/
def scanIpPair (cs : List Char) : Option (List Char × List Char) :=
  let s1 := (cs.takeWhile (fun c => !(c = '-'))).take 63
  if s1.isEmpty then none
  else
    match cs.drop s1.length with
    | '-' :: rest2 =>
        let rest3 := rest2.dropWhile isSpace
        let s2 := (rest3.takeWhile (fun c => !(isSpace c))).take 63
        if s2.isEmpty then none else some (s1, s2)
    | _ => none

/-- `is_valid_ip_range`: with no `-` present, one valid address; otherwise
split on the first `-` and require both sides to parse. -/
def is_valid_ip_range (r : String) : Bool :=
  if !(r.data.contains '-') then is_valid_ip r
  else
    match scanIpPair r.data with
    | some (s, e) => is_valid_ip ⟨s⟩ && is_valid_ip ⟨e⟩
    | none => false

/-- `is_within_ip_range`: parse the address; single-value ranges compare
for equality, `start-end` ranges test `start ≤ ip ≤ end` inclusive on the
32-bit host-order values. -/
def is_within_ip_range (ip r : String) : Bool :=
  match parseIPv4 ip with
  | none => false
  | some ipInt =>
    if !(r.data.contains '-') then
      match parseIPv4 r with
      | none => false
      | some startInt => ipInt == startInt
    else
      match scanIpPair r.data with
      | none => false
      | some (s, e) =>
        match parseIPv4 ⟨s⟩, parseIPv4 ⟨e⟩ with
        | some startInt, some endInt => startInt ≤ ipInt && ipInt ≤ endInt
        | _, _ => false

/-- `scanf`-style `%d`: skip whitespace, optional sign, at least one
digit; returns the value and the unconsumed remainder. -/
def scanDInt (cs : List Char) : Option (Int × List Char) :=
  match cs.dropWhile isSpace with
  | [] => none
  | c :: rest =>
    if c = '-' then
      let ds := rest.takeWhile Char.isDigit
      if ds.isEmpty then none
      else some (- (digitsToNat ds : Int), rest.drop ds.length)
    else if c = '+' then
      let ds := rest.takeWhile Char.isDigit
      if ds.isEmpty then none
      else some ((digitsToNat ds : Int), rest.drop ds.length)
    else
      let ds := (c :: rest).takeWhile Char.isDigit
      if ds.isEmpty then none
      else some ((digitsToNat ds : Int), (c :: rest).drop ds.length)

/-- `sscanf(range, "%d-%d", &a, &b)`: first `%d`, then the literal `-`
(matching exactly the next character), then the second `%d`.  `none`
models a conversion count below 2; the C code then reads indeterminate
stack values for the unassigned bound(s) — determinised to the rejecting
branch at the two call sites. -/
def scanPortPair (cs : List Char) : Option (Int × Int) :=
  match scanDInt cs with
  | none => none
  | some (a, rest) =>
    match rest with
    | '-' :: rest2 =>
      match scanDInt rest2 with
      | none => none
      | some (b, _) => some (a, b)
    | _ => none

/-- `is_valid_port_range`: single value via `atoi` in `[0, 65535]`; a
`p-q` range needs `p ≥ 0`, `q ≤ 65535` and `p < q` strictly. -/
def is_valid_port_range (r : String) : Bool :=
  if !(r.data.contains '-') then
    decide (0 ≤ atoi r) && decide (atoi r ≤ 65535)
  else
    match scanPortPair r.data with
    | some (s, e) => decide (0 ≤ s) && decide (e ≤ 65535) && decide (s < e)
    | none => false

/-- `is_within_port_range`: single value via `atoi` equality; a range
tests `start ≤ port ≤ end` inclusive. -/
def is_within_port_range (port : Int) (r : String) : Bool :=
  if !(r.data.contains '-') then port == atoi r
  else
    match scanPortPair r.data with
    | some (s, e) => decide (s ≤ port) && decide (port ≤ e)
    | none => false

/-- `strncpy(dst, src, n)` followed by `dst[n] = 0` into a buffer of
`n + 1` bytes: the first `n` characters of the source. -/
def strTrunc (n : Nat) (s : String) : String :=
  ⟨s.data.take n⟩

/-- One `(ip, port)` entry of a rule's query history
(the anonymous struct inside `FirewallRule`). -/
structure Query where
  ip : String
  port : Int
  deriving Repr, DecidableEq

/-- `FirewallRule`: the two range strings (buffers of 64 and 16 bytes, so
up to 63 / 15 stored characters) and the growable query log; the
capacity-doubling bookkeeping is not observable and is omitted. -/
structure FirewallRule where
  ip_range : String
  port_range : String
  queries : List Query
  deriving Repr, DecidableEq

/-- Whole-server mutable state: the rule array and the request log. -/
structure ServerState where
  rules : List FirewallRule
  requests : List String
  deriving Repr, DecidableEq

/-- `add_rule`: validate both ranges (`"Invalid rule"` on failure), scan
for an exact string match on both fields (`"Rule already exists"`), else
append a rule with empty history, the fields passing through
`strncpy`-truncation into the 64- and 16-byte buffers. -/
def add_rule (rules : List FirewallRule) (ipr pr : String) :
    List FirewallRule × String :=
  if !(is_valid_ip_range ipr) || !(is_valid_port_range pr) then
    (rules, "Invalid rule")
  else if rules.any (fun r => r.ip_range == ipr && r.port_range == pr) then
    (rules, "Rule already exists")
  else
    (rules ++ [⟨strTrunc 63 ipr, strTrunc 15 pr, []⟩], "Rule added")

/-- Does rule `r` match the connection `(ip, port)`?  (The two tests of
the loop body of `check_connection`.) -/
def ruleMatches (ip : String) (port : Int) (r : FirewallRule) : Bool :=
  is_within_ip_range ip r.ip_range && is_within_port_range port r.port_range

/-- The scan loop of `check_connection`: find the first matching rule,
append `(ip, port)` to its history (the stored ip passing through the
15-character `strncpy` into `char[INET_ADDRSTRLEN]`), leave the rest
untouched; `none` when no rule matches. -/
def checkScan (ip : String) (port : Int) :
    List FirewallRule → Option (List FirewallRule)
  | [] => none
  | r :: rs =>
    if ruleMatches ip port r then
      some ({ r with queries := r.queries ++ [⟨strTrunc 15 ip, port⟩] } :: rs)
    else
      (checkScan ip port rs).map (r :: ·)

/-- `check_connection`: reject an invalid address or out-of-range port
outright, otherwise run the first-match scan. -/
def check_connection (rules : List FirewallRule) (ip : String) (port : Int) :
    List FirewallRule × String :=
  if !(is_valid_ip ip) || port < 0 || port > 65535 then
    (rules, "Illegal IP address or port specified")
  else
    match checkScan ip port rules with
    | some rules' => (rules', "Connection accepted")
    | none => (rules, "Connection rejected")

/-- The scan loop of `delete_rule`: remove the first rule matching both
fields exactly (the C shifts every later rule down one slot, i.e. a
compaction); `none` when no rule matches. -/
def deleteScan (ipr pr : String) :
    List FirewallRule → Option (List FirewallRule)
  | [] => none
  | r :: rs =>
    if r.ip_range == ipr && r.port_range == pr then some rs
    else (deleteScan ipr pr rs).map (r :: ·)

/-- `delete_rule`: validate both ranges (`"Rule invalid"` on failure),
else remove the exact match (`"Rule deleted"`) or report
`"Rule not found"`. -/
def delete_rule (rules : List FirewallRule) (ipr pr : String) :
    List FirewallRule × String :=
  if !(is_valid_ip_range ipr) || !(is_valid_port_range pr) then
    (rules, "Rule invalid")
  else
    match deleteScan ipr pr rules with
    | some rules' => (rules', "Rule deleted")
    | none => (rules, "Rule not found")

/-- `list_rules` output (the fixed-size response buffer's silent
truncation at 1023 bytes is not modelled; no claim depends on it). -/
def list_rules (rules : List FirewallRule) : String :=
  if rules.length = 0 then "No rules found\n"
  else
    String.join (rules.map (fun r =>
      "Rule: " ++ r.ip_range ++ " " ++ r.port_range ++ "\n" ++
      String.join (r.queries.map (fun q =>
        "Query: " ++ q.ip ++ " " ++ toString q.port ++ "\n"))))

/-- `list_requests` output (same remark on response truncation). -/
def list_requests (reqs : List String) : String :=
  if reqs.length = 0 then "No requests found\n"
  else String.join ((reqs.take 100).map (fun r => r ++ "\n"))

/-- `trim_whitespace`: drop leading and trailing `isspace` characters in
place (an all-whitespace string becomes empty). -/
def trim (cs : List Char) : List Char :=
  ((cs.dropWhile isSpace).reverse.dropWhile isSpace).reverse

/-- `scanf`-style `%Ns`: skip whitespace, then up to `width` characters of
the following non-whitespace run; fails if the run is empty.  Scanning
resumes directly after the consumed characters, so a run longer than
`width` leaves its tail for the next conversion — exactly the C
behaviour. -/
def scanToken (width : Nat) (cs : List Char) :
    Option (List Char × List Char) :=
  let cs1 := cs.dropWhile isSpace
  let tok := (cs1.takeWhile (fun c => !(isSpace c))).take width
  if tok.isEmpty then none else some (tok, cs1.drop tok.length)

/-- The request-log cap, `MAX_REQUESTS`. -/
def MAX_REQUESTS : Nat := 100

/-- `process_request`: copy at most 1023 characters of the raw line
(`strncpy` into the 1024-byte `trimmed_request`), trim it, record it in
the request log unless the log is full or the line is exactly `"R"`, then
dispatch on the two-character command prefix.  `A`/`D` parse their
arguments with `sscanf("%63s %15s")` (two tokens required, anything after
them ignored), `C` with `sscanf("%15s %d")`. -/
def process_request (st : ServerState) (request : String) :
    ServerState × String :=
  let trimmed := trim (request.data.take 1023)
  let st1 : ServerState :=
    if st.requests.length < MAX_REQUESTS && !(trimmed == "R".data) then
      { st with requests := st.requests ++ [⟨trimmed⟩] }
    else st
  if trimmed.take 2 = ['A', ' '] then
    match scanToken 63 (trimmed.drop 2) with
    | none => (st1, "Invalid rule format")
    | some (t1, rest2) =>
      match scanToken 15 rest2 with
      | none => (st1, "Invalid rule format")
      | some (t2, _) =>
        let res := add_rule st1.rules ⟨t1⟩ ⟨t2⟩
        ({ st1 with rules := res.1 }, res.2)
  else if trimmed.take 2 = ['C', ' '] then
    match scanToken 15 (trimmed.drop 2) with
    | none => (st1, "Illegal IP address or port specified")
    | some (t1, rest2) =>
      match scanDInt rest2 with
      | none => (st1, "Illegal IP address or port specified")
      | some (p, _) =>
        let res := check_connection st1.rules ⟨t1⟩ p
        ({ st1 with rules := res.1 }, res.2)
  else if trimmed.take 2 = ['D', ' '] then
    match scanToken 63 (trimmed.drop 2) with
    | none => (st1, "Invalid rule format")
    | some (t1, rest2) =>
      match scanToken 15 rest2 with
      | none => (st1, "Invalid rule format")
      | some (t2, _) =>
        let res := delete_rule st1.rules ⟨t1⟩ ⟨t2⟩
        ({ st1 with rules := res.1 }, res.2)
  else if trimmed = ['R'] then (st1, list_requests st1.requests)
  else if trimmed = ['L'] then (st1, list_rules st1.rules)
  else (st1, "Illegal request")

/-- The state at process start: no rules, no recorded requests. -/
def initState : ServerState := ⟨[], []⟩

/-- The state after serving a sequence of request lines from `initState`,
each under the global lock (so sequentially). -/
def runRequests (reqs : List String) : ServerState :=
  reqs.foldl (fun st r => (process_request st r).1) initState

/-- Upper bound on how many more digits the current octet can absorb:
an octet value stays `≤ 255` and has no leading zeros, so at most three
digits total. -/
def maxMore (cur : Nat) (sd : Bool) : Nat :=
  if sd then
    (if cur = 0 then 0 else if cur ≤ 9 then 2 else if cur ≤ 99 then 1 else 0)
  else 3

/-- The canonical decimal numeral of a natural number. -/
def natDigits (n : Nat) : List Char :=
  if h : n < 10 then [Nat.digitChar n]
  else natDigits (n / 10) ++ [Nat.digitChar (n % 10)]
decreasing_by exact Nat.div_lt_self (by omega) (by omega)

/-- The identity of a rule: its two range strings. -/
def ruleKey (r : FirewallRule) : String × String :=
  (r.ip_range, r.port_range)

/-- Invariant of every reachable rule store: no two rules share a
`(ip_range, port_range)` pair, and every stored range fits its C buffer
(63 and 15 characters — guaranteed by the `%63s`/`%15s` parses). -/
def storeInv (rules : List FirewallRule) : Prop :=
  (rules.map ruleKey).Nodup ∧
  ∀ r ∈ rules, r.ip_range.data.length ≤ 63 ∧ r.port_range.data.length ≤ 15

/-- Invariant of every reachable rule store: each recorded query is a
valid address with an in-range port that matched its rule's two ranges
when recorded (the ranges never change afterwards). -/
def goodState (rules : List FirewallRule) : Prop :=
  ∀ r ∈ rules, ∀ q ∈ r.queries,
    is_valid_ip q.ip = true ∧ 0 ≤ q.port ∧ q.port ≤ 65535 ∧
    is_within_ip_range q.ip r.ip_range = true ∧
    is_within_port_range q.port r.port_range = true

/-! ### Generic list and character lemmas -/

theorem dropWhile_eq_self_of (p : Char → Bool) :
    ∀ l : List Char, (∀ c ∈ l, p c = false) → l.dropWhile p = l := by
  intro l h
  cases l with
  | nil => rfl
  | cons c cs =>
    rw [List.dropWhile_cons, h c (List.mem_cons_self c cs)]
    simp

theorem takeWhile_eq_self_of (p : Char → Bool) :
    ∀ l : List Char, (∀ c ∈ l, p c = true) → l.takeWhile p = l := by
  intro l h
  induction l with
  | nil => rfl
  | cons c cs ih =>
    have h1 := h c (List.mem_cons_self c cs)
    have h2 := ih fun x hx => h x (List.mem_cons_of_mem c hx)
    simp [List.takeWhile_cons, h1, h2]

theorem takeWhile_append_cons (p : Char → Bool) :
    ∀ (l : List Char) (c : Char) (r : List Char),
      (∀ x ∈ l, p x = true) → p c = false →
      (l ++ c :: r).takeWhile p = l := by
  intro l c r hl hc
  induction l with
  | nil => simp [List.takeWhile_cons, hc]
  | cons a as ih =>
    have h1 := hl a (List.mem_cons_self a as)
    have h2 := ih fun x hx => hl x (List.mem_cons_of_mem a hx)
    simp [List.takeWhile_cons, h1, h2]

theorem isSpace_cases (c : Char) (h : isSpace c = true) :
    c = ' ' ∨ c = '\t' ∨ c = '\n' ∨ c = '\x0b' ∨ c = '\x0c' ∨ c = '\r' := by
  simp only [isSpace, Bool.or_eq_true, decide_eq_true_eq] at h
  tauto

theorem isDigit_not_isSpace (c : Char) (h : c.isDigit = true) :
    isSpace c = false := by
  by_contra hc
  have hs : isSpace c = true := by
    revert hc; cases isSpace c <;> simp
  rcases isSpace_cases c hs with rfl|rfl|rfl|rfl|rfl|rfl <;>
    exact absurd h (by decide)

theorem dot_not_isSpace : isSpace '.' = false := by decide

theorem isDigit_ne_dash (c : Char) (h : c.isDigit = true) : c ≠ '-' := by
  intro he
  subst he
  exact absurd h (by decide)

/-! ### Facts about the IPv4 parser -/

theorem pton4Aux_chars :
    ∀ (cs : List Char) (cur : Nat) (sd : Bool) (acc l : List Nat),
      pton4Aux cs cur sd acc = some l →
      ∀ c ∈ cs, c.isDigit = true ∨ c = '.' := by
  intro cs
  induction cs with
  | nil => intro _ _ _ _ _ c hc; exact absurd hc (List.not_mem_nil c)
  | cons a rest ih =>
    intro cur sd acc l h c hc
    rw [pton4Aux] at h
    split at h
    · rename_i ha
      split at h
      · exact absurd h (by simp)
      · split at h
        · exact absurd h (by simp)
        · rcases List.mem_cons.mp hc with rfl | hmem
          · exact Or.inl ha
          · exact ih _ _ _ _ h c hmem
    · split at h
      · rename_i hdot
        rcases List.mem_cons.mp hc with rfl | hmem
        · exact Or.inr
            (eq_of_beq ((Bool.and_eq_true _ _).mp
              ((Bool.and_eq_true _ _).mp hdot).1).1)
        · exact ih _ _ _ _ h c hmem
      · exact absurd h (by simp)

theorem maxMore_false (cur : Nat) : maxMore cur false = 3 := rfl

theorem maxMore_true (v : Nat) :
    maxMore v true =
      (if v = 0 then 0 else if v ≤ 9 then 2 else if v ≤ 99 then 1 else 0) :=
  rfl

theorem maxMore_le_two (v : Nat) : maxMore v true ≤ 2 := by
  rw [maxMore_true]
  split
  · omega
  · split
    · omega
    · split <;> omega

theorem maxMore_step (cur d : Nat) (hcur : 1 ≤ cur)
    (hv : cur * 10 + d ≤ 255) :
    maxMore (cur * 10 + d) true + 1 ≤ maxMore cur true := by
  rw [maxMore_true, maxMore_true]
  have h6 : ¬ cur = 0 := by omega
  have h3 : ¬ (cur * 10 + d = 0) := by omega
  have h4 : ¬ (cur * 10 + d ≤ 9) := by omega
  rw [if_neg h6, if_neg h3, if_neg h4]
  by_cases h1 : cur ≤ 9
  · rw [if_pos h1]
    split <;> omega
  · rw [if_neg h1]
    by_cases h2 : cur ≤ 99
    · have h5 : ¬ (cur * 10 + d ≤ 99) := by omega
      rw [if_pos h2, if_neg h5]
    · omega

theorem maxMore_nonneg (cur : Nat) (sd : Bool) : 0 ≤ maxMore cur sd :=
  Nat.zero_le _

theorem pton4Aux_length :
    ∀ (cs : List Char) (cur : Nat) (sd : Bool) (acc l : List Nat),
      pton4Aux cs cur sd acc = some l →
      cs.length ≤ maxMore cur sd + (3 - acc.length) * 4 := by
  intro cs
  induction cs with
  | nil => intro _ _ _ _ _; simp
  | cons a rest ih =>
    intro cur sd acc l h
    rw [pton4Aux] at h
    split at h
    · split at h
      · exact absurd h (by simp)
      · split at h
        · exact absurd h (by simp)
        · rename_i hnz hle
          have hrec := ih _ _ _ _ h
          simp only [List.length_cons]
          have hb : maxMore (cur * 10 + (a.toNat - 48)) true + 1 ≤
              maxMore cur sd := by
            cases sd with
            | false =>
              rw [maxMore_false]
              have := maxMore_le_two (cur * 10 + (a.toNat - 48))
              omega
            | true =>
              have hcur : 1 ≤ cur := by
                rcases Nat.eq_zero_or_pos cur with h0 | h1
                · exact absurd (by simp [h0]) hnz
                · exact h1
              exact maxMore_step cur (a.toNat - 48) hcur (by omega)
          omega
    · split at h
      · rename_i hdot
        have hlen : acc.length < 3 :=
          of_decide_eq_true ((Bool.and_eq_true _ _).mp hdot).2
        have hrec := ih _ _ _ _ h
        rw [maxMore_false] at hrec
        simp only [List.length_append, List.length_cons,
          List.length_nil] at hrec
        simp only [List.length_cons]
        omega
      · exact absurd h (by simp)

theorem parseIPv4_length (s : String) (v : Nat)
    (h : parseIPv4 s = some v) : s.data.length ≤ 15 := by
  rw [parseIPv4] at h
  cases hp : pton4Aux s.data 0 false [] with
  | none => rw [hp] at h; exact absurd h (by simp)
  | some l =>
    have h2 := pton4Aux_length s.data 0 false [] l hp
    rw [maxMore_false] at h2
    simp only [List.length_nil] at h2
    omega

theorem parseIPv4_chars (s : String) (v : Nat)
    (h : parseIPv4 s = some v) :
    ∀ c ∈ s.data, c.isDigit = true ∨ c = '.' := by
  rw [parseIPv4] at h
  cases hp : pton4Aux s.data 0 false [] with
  | none => rw [hp] at h; exact absurd h (by simp)
  | some l => exact pton4Aux_chars s.data 0 false [] l hp

theorem parseIPv4_ne_nil (s : String) (v : Nat)
    (h : parseIPv4 s = some v) : s.data ≠ [] := by
  intro he
  rw [parseIPv4, he] at h
  rw [pton4Aux] at h
  exact absurd h (by simp)

theorem parseIPv4_no_dash (s : String) (v : Nat)
    (h : parseIPv4 s = some v) : ∀ c ∈ s.data, c ≠ '-' := by
  intro c hc
  rcases parseIPv4_chars s v h c hc with hd | rfl
  · exact isDigit_ne_dash c hd
  · decide

theorem parseIPv4_no_space (s : String) (v : Nat)
    (h : parseIPv4 s = some v) : ∀ c ∈ s.data, isSpace c = false := by
  intro c hc
  rcases parseIPv4_chars s v h c hc with hd | rfl
  · exact isDigit_not_isSpace c hd
  · decide

theorem strTrunc_eq_self (n : Nat) (s : String) (h : s.data.length ≤ n) :
    strTrunc n s = s := by
  cases s with
  | mk data =>
    simp only [strTrunc]
    congr 1
    exact List.take_of_length_le h

/-! ### Decimal numerals, for quantifying over `"p-q"` range strings -/

theorem digitChar_isDigit : ∀ d : Nat, d < 10 →
    (Nat.digitChar d).isDigit = true := by decide

theorem digitChar_toNat : ∀ d : Nat, d < 10 →
    (Nat.digitChar d).toNat = 48 + d := by decide

theorem natDigits_ne_nil (n : Nat) : natDigits n ≠ [] := by
  rw [natDigits]
  split
  · simp
  · simp

theorem natDigits_all_digit (n : Nat) :
    ∀ c ∈ natDigits n, c.isDigit = true := by
  induction n using Nat.strong_induction_on with
  | _ n ih =>
    rw [natDigits]
    split
    · rename_i h
      intro c hc
      rcases List.mem_singleton.mp hc with rfl
      exact digitChar_isDigit n h
    · rename_i h
      intro c hc
      rcases List.mem_append.mp hc with hm | hm
      · exact ih (n / 10) (Nat.div_lt_self (by omega) (by omega)) c hm
      · rcases List.mem_singleton.mp hm with rfl
        exact digitChar_isDigit (n % 10) (Nat.mod_lt n (by omega))

theorem digitsToNat_append (l : List Char) (c : Char) :
    digitsToNat (l ++ [c]) = digitsToNat l * 10 + (c.toNat - 48) := by
  simp [digitsToNat, List.foldl_append]

theorem digitsToNat_natDigits (n : Nat) :
    digitsToNat (natDigits n) = n := by
  induction n using Nat.strong_induction_on with
  | _ n ih =>
    rw [natDigits]
    split
    · rename_i h
      simp [digitsToNat, digitChar_toNat n h]
    · rename_i h
      rw [digitsToNat_append,
        ih (n / 10) (Nat.div_lt_self (by omega) (by omega)),
        digitChar_toNat (n % 10) (Nat.mod_lt n (by omega))]
      omega

/-! ### Behaviour of the scanners on well-formed input -/

theorem isDigit_ne_plus (c : Char) (h : c.isDigit = true) : c ≠ '+' := by
  intro he
  subst he
  exact absurd h (by decide)

theorem contains_of_mem (l : List Char) (c : Char) (h : c ∈ l) :
    l.contains c = true :=
  List.elem_iff.mpr h

theorem not_contains_of (l : List Char) (c : Char) (h : c ∉ l) :
    l.contains c = false := by
  cases hc : l.contains c with
  | false => rfl
  | true => exact absurd (List.elem_iff.mp hc) h

theorem takeWhile_append_of (p : Char → Bool) (l r : List Char)
    (hl : ∀ x ∈ l, p x = true) (hr : ∀ c ∈ r.take 1, p c = false) :
    (l ++ r).takeWhile p = l := by
  cases r with
  | nil => rw [List.append_nil]; exact takeWhile_eq_self_of p l hl
  | cons c r' =>
    exact takeWhile_append_cons p l c r' hl
      (hr c (by simp))

/-- `%d` on a nonempty digit run followed by a non-digit (or nothing)
consumes exactly the run and returns its value. -/
theorem scanDInt_numeral (l r : List Char)
    (hl : ∀ c ∈ l, c.isDigit = true) (hne : l ≠ [])
    (hr : ∀ c ∈ r.take 1, c.isDigit = false) :
    scanDInt (l ++ r) = some ((digitsToNat l : Int), r) := by
  obtain ⟨c, cs, rfl⟩ : ∃ c cs, l = c :: cs := by
    cases l with
    | nil => exact absurd rfl hne
    | cons c cs => exact ⟨c, cs, rfl⟩
  have hc := hl c (List.mem_cons_self c cs)
  have hdw : ((c :: cs) ++ r).dropWhile isSpace = c :: (cs ++ r) := by
    rw [List.cons_append, List.dropWhile_cons, isDigit_not_isSpace c hc]
    simp
  have htw : (c :: (cs ++ r)).takeWhile Char.isDigit = c :: cs := by
    rw [← List.cons_append]
    exact takeWhile_append_of Char.isDigit (c :: cs) r hl hr
  rw [scanDInt, hdw]
  simp only [if_neg (isDigit_ne_dash c hc), if_neg (isDigit_ne_plus c hc),
    htw]
  have hemp : (c :: cs).isEmpty = false := rfl
  simp only [hemp, Bool.false_eq_true, if_false]
  rw [← List.cons_append, List.drop_left]

/-- `atoi` on a nonempty digit run reads its value (no sign, no
whitespace). -/
theorem atoi_numeral (l : List Char)
    (hl : ∀ c ∈ l, c.isDigit = true) (hne : l ≠ []) :
    atoi ⟨l⟩ = (digitsToNat l : Int) := by
  obtain ⟨c, cs, rfl⟩ : ∃ c cs, l = c :: cs := by
    cases l with
    | nil => exact absurd rfl hne
    | cons c cs => exact ⟨c, cs, rfl⟩
  have hc := hl c (List.mem_cons_self c cs)
  have hdw : (c :: cs).dropWhile isSpace = c :: cs := by
    rw [List.dropWhile_cons, isDigit_not_isSpace c hc]
    simp
  rw [atoi]
  simp only [hdw]
  rw [if_neg (isDigit_ne_dash c hc), if_neg (isDigit_ne_plus c hc),
    takeWhile_eq_self_of Char.isDigit (c :: cs) hl]

/-- `%d-%d` on the canonical numeral pair string. -/
theorem scanPortPair_numeral (p q : Nat) :
    scanPortPair (natDigits p ++ '-' :: natDigits q) =
      some ((p : Int), (q : Int)) := by
  have h1 : scanDInt (natDigits p ++ '-' :: natDigits q) =
      some ((digitsToNat (natDigits p) : Int), '-' :: natDigits q) :=
    scanDInt_numeral (natDigits p) ('-' :: natDigits q)
      (natDigits_all_digit p) (natDigits_ne_nil p)
      (by intro c hc; simp at hc; subst hc; decide)
  have h2 : scanDInt (natDigits q ++ ([] : List Char)) =
      some ((digitsToNat (natDigits q) : Int), []) :=
    scanDInt_numeral (natDigits q) [] (natDigits_all_digit q)
      (natDigits_ne_nil q) (by intro c hc; simp at hc)
  rw [List.append_nil] at h2
  rw [scanPortPair, h1]
  simp only [h2, digitsToNat_natDigits]

theorem natDigits_no_dash (n : Nat) :
    '-' ∉ natDigits n := by
  intro hm
  exact isDigit_ne_dash '-' (natDigits_all_digit n '-' hm) rfl

/-! ### Claim theorems -/

/-- C4: `IsValidPortRange` on the single-value form accepts exactly the
ports in `[0, 65535]`; on the range form `"p-q"` it accepts exactly
`0 ≤ p`, `q ≤ 65535` with `p < q` strictly, so `"80-80"` is rejected and
`"80-81"` accepted. -/
theorem is_valid_port_range_iff (p q : Nat) :
    is_valid_port_range ⟨natDigits p ++ '-' :: natDigits q⟩
        = (decide (q ≤ 65535) && decide (p < q)) ∧
    is_valid_port_range ⟨natDigits p⟩ = decide (p ≤ 65535) ∧
    (∀ s : String, s.data.contains '-' = false →
      is_valid_port_range s =
        (decide (0 ≤ atoi s) && decide (atoi s ≤ 65535))) ∧
    is_valid_port_range "80-80" = false ∧
    is_valid_port_range "80-81" = true := by
  refine ⟨?_, ?_, ?_, by decide, by decide⟩
  case refine_3 =>
    intro s hnc
    rw [is_valid_port_range]
    simp only [hnc, Bool.not_false, if_true]
  · have hcont : (natDigits p ++ '-' :: natDigits q).contains '-' = true :=
      contains_of_mem _ _ (List.mem_append_right _ (List.mem_cons_self _ _))
    rw [is_valid_port_range]
    simp only [hcont, Bool.not_true, Bool.false_eq_true, if_false,
      scanPortPair_numeral]
    have e1 : decide (0 ≤ (p : Int)) = true :=
      decide_eq_true (Int.natCast_nonneg p)
    have e2 : decide ((q : Int) ≤ 65535) = decide (q ≤ 65535) := by
      rw [decide_eq_decide]
      constructor <;> intro h <;> exact_mod_cast h
    have e3 : decide ((p : Int) < (q : Int)) = decide (p < q) := by
      rw [decide_eq_decide]
      constructor <;> intro h <;> exact_mod_cast h
    rw [e1, e2, e3, Bool.true_and]
  · have hnc : (natDigits p).contains '-' = false :=
      not_contains_of _ _ (natDigits_no_dash p)
    rw [is_valid_port_range]
    simp only [hnc, Bool.not_false, if_true]
    rw [atoi_numeral (natDigits p) (natDigits_all_digit p)
      (natDigits_ne_nil p), digitsToNat_natDigits]
    have e1 : decide (0 ≤ (p : Int)) = true :=
      decide_eq_true (Int.natCast_nonneg p)
    have e2 : decide ((p : Int) ≤ 65535) = decide (p ≤ 65535) := by
      rw [decide_eq_decide]
      constructor <;> intro h <;> exact_mod_cast h
    rw [e1, e2, Bool.true_and]

/-- C4 witness: the theorem applied at `p = 80`, `q = 81`. -/
theorem is_valid_port_range_iff_witness :
    is_valid_port_range ⟨natDigits 80 ++ '-' :: natDigits 81⟩
      = (decide ((81 : Nat) ≤ 65535) && decide (80 < 81)) :=
  (is_valid_port_range_iff 80 81).1

/-- C7 counterexample: the claim says malformed numeric text in a range
bound "parses as 0"; in fact the `%d-%d` scan fails on `"x-80"` without
assigning anything (conversion count 0), rather than producing the bound
pair `(0, 80)`. -/
theorem scanPortPair_malformed_fails :
    scanPortPair ("x-80".data) = none ∧
    scanPortPair ("x-80".data) ≠ some ((0 : Int), (80 : Int)) := by
  refine ⟨by decide, ?_⟩
  intro h
  have : (none : Option (Int × Int)) = some ((0 : Int), (80 : Int)) := by
    rw [← h]; decide
  exact absurd this (by decide)

theorem takeWhile_nil_of (p : Char → Bool) (l : List Char)
    (h : ∀ c ∈ l.take 1, p c = false) : l.takeWhile p = [] := by
  cases l with
  | nil => rfl
  | cons c cs =>
    rw [List.takeWhile_cons, h c (by simp)]
    simp

theorem dropWhile_subset_self (p : Char → Bool) :
    ∀ (l : List Char), ∀ c ∈ l.dropWhile p, c ∈ l := by
  intro l
  induction l with
  | nil => intro c hc; exact hc
  | cons a as ih =>
    intro c hc
    rw [List.dropWhile_cons] at hc
    split at hc
    · exact List.mem_cons_of_mem a (ih c hc)
    · exact hc

/-- `%d` on text containing no digit at all assigns nothing (conversion
failure), regardless of leading whitespace or a sign. -/
theorem scanDInt_no_digit (cs : List Char)
    (h : ∀ c ∈ cs, c.isDigit = false) : scanDInt cs = none := by
  rw [scanDInt]
  split
  · rfl
  · rename_i c rest hd
    have hsub : ∀ x ∈ c :: rest, x ∈ cs := by
      rw [← hd]; exact dropWhile_subset_self isSpace cs
    have hc : c.isDigit = false := h c (hsub c (List.mem_cons_self c rest))
    have htwr : rest.takeWhile Char.isDigit = [] :=
      takeWhile_nil_of Char.isDigit rest (fun x hx =>
        h x (hsub x (List.mem_cons_of_mem c (List.mem_of_mem_take hx))))
    have htwc : (c :: rest).takeWhile Char.isDigit = [] :=
      takeWhile_nil_of Char.isDigit (c :: rest) (fun x hx => by
        rcases List.mem_singleton.mp (by simpa using hx) with rfl
        exact hc)
    by_cases h1 : c = '-'
    · rw [if_pos h1, htwr]
      rfl
    · rw [if_neg h1]
      by_cases h2 : c = '+'
      · rw [if_pos h2, htwr]
        rfl
      · rw [if_neg h2, htwc]
        rfl

/-- `atoi` on a token whose first non-whitespace character is neither a
digit nor a sign reads an empty digit run: the result is 0. -/
theorem atoi_nonnumeric_head (s : String) (c : Char) (rest : List Char)
    (hd : s.data.dropWhile isSpace = c :: rest)
    (hc : c.isDigit = false) (hplus : c ≠ '+') (hminus : c ≠ '-') :
    atoi s = 0 := by
  have htwc : (c :: rest).takeWhile Char.isDigit = [] :=
    takeWhile_nil_of Char.isDigit (c :: rest) (fun x hx => by
      rcases List.mem_singleton.mp (by simpa using hx) with rfl
      exact hc)
  rw [atoi, hd]
  simp only [if_neg hminus, if_neg hplus, htwc]
  rfl

/-- `atoi` on digit-free text is 0 (the sign, if any, negates the empty
digit run). -/
theorem atoi_no_digit (s : String)
    (h : ∀ c ∈ s.data, c.isDigit = false) : atoi s = 0 := by
  rw [atoi]
  split
  · rfl
  · rename_i c rest hd
    have hsub : ∀ x ∈ c :: rest, x ∈ s.data := by
      rw [← hd]; exact dropWhile_subset_self isSpace s.data
    have hc : c.isDigit = false := h c (hsub c (List.mem_cons_self c rest))
    have htwr : rest.takeWhile Char.isDigit = [] :=
      takeWhile_nil_of Char.isDigit rest (fun x hx =>
        h x (hsub x (List.mem_cons_of_mem c (List.mem_of_mem_take hx))))
    have htwc : (c :: rest).takeWhile Char.isDigit = [] :=
      takeWhile_nil_of Char.isDigit (c :: rest) (fun x hx => by
        rcases List.mem_singleton.mp (by simpa using hx) with rfl
        exact hc)
    by_cases h1 : c = '-'
    · rw [if_pos h1, htwr]
      decide
    · rw [if_neg h1]
      by_cases h2 : c = '+'
      · rw [if_pos h2, htwr]
        decide
      · rw [if_neg h2, htwc]
        decide

/-- C7 (amended): the 0-on-garbage convention is the single-value form's
alone. `atoi` yields 0 for every token whose text is digit-free or whose
first non-whitespace character is not numeric, so `IsValidPortRange`
accepts every such dash-free token; by contrast the `%d-%d` scan of the
range form fails — assigning nothing — for every first bound starting
with a non-numeric character and for every digit-free second bound (the
C code then reads an indeterminate stack value; the model takes the
rejecting branch). -/
theorem port_parse_permissive_single_only :
    (∀ (s : String) (c : Char) (rest : List Char),
      s.data.dropWhile isSpace = c :: rest →
      c.isDigit = false → c ≠ '+' → c ≠ '-' →
      atoi s = 0) ∧
    (∀ s : String, (∀ c ∈ s.data, c.isDigit = false) → atoi s = 0) ∧
    (∀ s : String, s.data.contains '-' = false → atoi s = 0 →
      is_valid_port_range s = true) ∧
    (∀ cs : List Char, (∀ c ∈ cs, c.isDigit = false) →
      scanDInt cs = none) ∧
    (∀ (c : Char) (rest : List Char),
      isSpace c = false → c.isDigit = false → c ≠ '+' → c ≠ '-' →
      scanPortPair (c :: rest) = none) ∧
    (∀ (p : Nat) (y : List Char), (∀ c ∈ y, c.isDigit = false) →
      scanPortPair (natDigits p ++ '-' :: y) = none) ∧
    is_valid_port_range "abc" = true ∧
    scanPortPair ("x-80".data) = none := by
  refine ⟨atoi_nonnumeric_head, atoi_no_digit, ?_, scanDInt_no_digit,
    ?_, ?_, by decide, by decide⟩
  · intro s hnc ha
    rw [is_valid_port_range]
    simp only [hnc, Bool.not_false, if_true, ha]
    decide
  · intro c rest hsp hdg hplus hminus
    have hdw : (c :: rest).dropWhile isSpace = c :: rest := by
      rw [List.dropWhile_cons, hsp]
      simp
    have htwc : (c :: rest).takeWhile Char.isDigit = [] :=
      takeWhile_nil_of Char.isDigit (c :: rest) (fun x hx => by
        rcases List.mem_singleton.mp (by simpa using hx) with rfl
        exact hdg)
    have h1 : scanDInt (c :: rest) = none := by
      rw [scanDInt, hdw]
      simp only [if_neg hminus, if_neg hplus, htwc]
      rfl
    rw [scanPortPair, h1]
  · intro p y hy
    have h1 : scanDInt (natDigits p ++ '-' :: y) =
        some ((digitsToNat (natDigits p) : Int), '-' :: y) :=
      scanDInt_numeral (natDigits p) ('-' :: y)
        (natDigits_all_digit p) (natDigits_ne_nil p)
        (fun c hc => by
          rcases List.mem_singleton.mp (by simpa using hc) with rfl
          decide)
    rw [scanPortPair, h1]
    simp only [scanDInt_no_digit y hy]

/-- C7 witness: the universal parts of the theorem applied to the
dash-free token `"abc"` and to the range strings `"x-80"` and
`"80-"`. -/
theorem port_parse_permissive_single_only_witness :
    is_valid_port_range "abc" = true ∧
    scanPortPair ("x-80".data) = none ∧
    scanPortPair (natDigits 80 ++ '-' :: ([] : List Char)) = none :=
  ⟨port_parse_permissive_single_only.2.2.1 "abc" (by decide)
      (port_parse_permissive_single_only.2.1 "abc" (by decide)),
    port_parse_permissive_single_only.2.2.2.2.1 'x' ("-80".data)
      (by decide) (by decide) (by decide) (by decide),
    port_parse_permissive_single_only.2.2.2.2.2.1 80 []
      (fun c hc => absurd hc (List.not_mem_nil c))⟩

theorem isEmpty_false_of_ne_nil (l : List Char) (h : l ≠ []) :
    l.isEmpty = false := by
  cases l with
  | nil => exact absurd rfl h
  | cons c cs => rfl

/-- `%63[^-]-%63s` on a range string assembled from two valid addresses
splits it back into exactly those two addresses. -/
theorem scanIpPair_of_valid (a b : String) (av bv : Nat)
    (ha : parseIPv4 a = some av) (hb : parseIPv4 b = some bv) :
    scanIpPair (a.data ++ '-' :: b.data) = some (a.data, b.data) := by
  have hla := parseIPv4_length a av ha
  have hlb := parseIPv4_length b bv hb
  have h1 : (a.data ++ '-' :: b.data).takeWhile (fun c => !(c = '-'))
      = a.data :=
    takeWhile_append_cons _ a.data '-' b.data
      (fun x hx => by simp [parseIPv4_no_dash a av ha x hx])
      (by simp)
  have h1' : ((a.data ++ '-' :: b.data).takeWhile
      (fun c => !(c = '-'))).take 63 = a.data := by
    rw [h1]
    exact List.take_of_length_le (by omega)
  have hne : a.data.isEmpty = false :=
    isEmpty_false_of_ne_nil _ (parseIPv4_ne_nil a av ha)
  have hdrop : (a.data ++ '-' :: b.data).drop a.data.length
      = '-' :: b.data := List.drop_left _ _
  have hds : b.data.dropWhile isSpace = b.data :=
    dropWhile_eq_self_of _ _ (parseIPv4_no_space b bv hb)
  have hts : (b.data.takeWhile (fun c => !(isSpace c))).take 63
      = b.data := by
    rw [takeWhile_eq_self_of _ _
      (fun c hc => by simp [parseIPv4_no_space b bv hb c hc])]
    exact List.take_of_length_le (by omega)
  have hneb : b.data.isEmpty = false :=
    isEmpty_false_of_ne_nil _ (parseIPv4_ne_nil b bv hb)
  rw [scanIpPair]
  simp only [h1', hne, Bool.false_eq_true, if_false, hdrop, hds, hts, hneb]

/-- C5: range matching on `"a-b"` is the inclusive interval
`[a_int, b_int]` on 32-bit host-order values: both endpoints match when
`a ≤ b`, values outside never match, an inverted range matches nothing,
and the single-value form is exact numeric equality. -/
theorem is_within_ip_range_interval (a b c r : String) (av bv cv : Nat)
    (ha : parseIPv4 a = some av) (hb : parseIPv4 b = some bv)
    (hc : parseIPv4 c = some cv)
    (hr : r.data = a.data ++ '-' :: b.data) :
    (av ≤ bv → is_within_ip_range a r = true) ∧
    (av ≤ bv → is_within_ip_range b r = true) ∧
    (cv < av ∨ bv < cv → is_within_ip_range c r = false) ∧
    (bv < av → is_within_ip_range c r = false) ∧
    is_within_ip_range c b = (cv == bv) := by
  have hcont : r.data.contains '-' = true := by
    rw [hr]
    exact contains_of_mem _ _
      (List.mem_append_right _ (List.mem_cons_self _ _))
  have key : ∀ (x : String) (xv : Nat), parseIPv4 x = some xv →
      is_within_ip_range x r = (decide (av ≤ xv) && decide (xv ≤ bv)) := by
    intro x xv hx
    rw [is_within_ip_range, hx]
    simp only [hcont, Bool.not_true, Bool.false_eq_true, if_false]
    rw [hr, scanIpPair_of_valid a b av bv ha hb]
    have ea : (⟨a.data⟩ : String) = a := rfl
    have eb : (⟨b.data⟩ : String) = b := rfl
    simp only [ea, eb, ha, hb]
  refine ⟨?_, ?_, ?_, ?_, ?_⟩
  · intro hab
    rw [key a av ha]
    simp [hab]
  · intro hab
    rw [key b bv hb]
    simp [hab]
  · intro hout
    rw [key c cv hc]
    rcases hout with hlt | hgt
    · have hn : ¬ (av ≤ cv) := by omega
      simp [hn]
    · have hn : ¬ (cv ≤ bv) := by omega
      simp [hn]
  · intro hinv
    rw [key c cv hc]
    rcases Nat.lt_or_ge cv av with hlt | hge
    · have hn : ¬ (av ≤ cv) := by omega
      simp [hn]
    · have hn : ¬ (cv ≤ bv) := by omega
      simp [hn]
  · have hnc : b.data.contains '-' = false :=
      not_contains_of _ _ (fun hm => parseIPv4_no_dash b bv hb '-' hm rfl)
    rw [is_within_ip_range, hc]
    simp only [hnc, Bool.not_false, if_true, hb]

/-- C5 witness: the theorem applied to the range
`"10.0.0.1-10.0.0.10"`. -/
theorem is_within_ip_range_interval_witness :
    is_within_ip_range "10.0.0.1" "10.0.0.1-10.0.0.10" = true :=
  (is_within_ip_range_interval "10.0.0.1" "10.0.0.10" "10.0.0.5"
    "10.0.0.1-10.0.0.10" 167772161 167772170 167772165
    (by decide) (by decide) (by decide) (by decide)).1 (by decide)

/-- A valid address string survives the 15-character `strncpy` into
`char ip[INET_ADDRSTRLEN]` unchanged. -/
theorem strTrunc_valid_ip (ip : String) (h : is_valid_ip ip = true) :
    strTrunc 15 ip = ip := by
  rw [is_valid_ip] at h
  obtain ⟨v, hv⟩ := Option.isSome_iff_exists.mp h
  exact strTrunc_eq_self 15 ip (parseIPv4_length ip v hv)

theorem checkScan_first_match (ip : String) (port : Int) :
    ∀ (rules : List FirewallRule) (i : Nat) (hi : i < rules.length),
      ruleMatches ip port (rules.get ⟨i, hi⟩) = true →
      (∀ (j : Nat) (hj : j < i),
        ruleMatches ip port (rules.get ⟨j, Nat.lt_trans hj hi⟩) = false) →
      checkScan ip port rules = some (rules.set i
        { rules.get ⟨i, hi⟩ with
          queries := (rules.get ⟨i, hi⟩).queries ++
            [⟨strTrunc 15 ip, port⟩] }) := by
  intro rules
  induction rules with
  | nil => intro i hi; exact absurd hi (by simp)
  | cons r rs ih =>
    intro i hi hm hprev
    cases i with
    | zero =>
      have hm' : ruleMatches ip port r = true := hm
      rw [checkScan, if_pos hm']
      rfl
    | succ n =>
      have h0 : ruleMatches ip port r = false := hprev 0 (Nat.succ_pos n)
      have hn : ¬ (ruleMatches ip port r = true) := by
        rw [h0]; simp
      have hi' : n < rs.length := Nat.lt_of_succ_lt_succ hi
      rw [checkScan, if_neg hn,
        ih n hi' hm (fun j hj => hprev (j + 1) (Nat.succ_lt_succ hj))]
      rfl

theorem checkScan_none (ip : String) (port : Int) :
    ∀ rules : List FirewallRule,
      (∀ r ∈ rules, ruleMatches ip port r = false) →
      checkScan ip port rules = none := by
  intro rules
  induction rules with
  | nil => intro _; rfl
  | cons r rs ih =>
    intro h
    have h0 := h r (List.mem_cons_self r rs)
    have hn : ¬ (ruleMatches ip port r = true) := by
      rw [h0]; simp
    rw [checkScan, if_neg hn,
      ih (fun x hx => h x (List.mem_cons_of_mem r hx))]
    rfl

/-- C1: for a valid address and in-range port, `check_connection` scans
the rules in insertion order: the earliest matching rule alone gets
`(ip, port)` appended to its history (everything else untouched) and the
response is `"Connection accepted"`; with no matching rule the store is
unchanged and the response is `"Connection rejected"`. -/
theorem check_connection_first_match (rules : List FirewallRule)
    (ip : String) (port : Int)
    (hip : is_valid_ip ip = true) (h0 : 0 ≤ port) (h65 : port ≤ 65535) :
    (∀ (i : Nat) (hi : i < rules.length),
        ruleMatches ip port (rules.get ⟨i, hi⟩) = true →
        (∀ (j : Nat) (hj : j < i),
          ruleMatches ip port (rules.get ⟨j, Nat.lt_trans hj hi⟩) = false) →
        check_connection rules ip port =
          (rules.set i { rules.get ⟨i, hi⟩ with
              queries := (rules.get ⟨i, hi⟩).queries ++ [⟨ip, port⟩] },
            "Connection accepted")) ∧
    ((∀ r ∈ rules, ruleMatches ip port r = false) →
        check_connection rules ip port = (rules, "Connection rejected")) := by
  have hnl : ¬ (port < 0) := by omega
  have hng : ¬ (port > 65535) := by omega
  have hcond : ¬ ((!(is_valid_ip ip) || decide (port < 0) ||
      decide (port > 65535)) = true) := by
    simp [hip, hnl, hng]
  constructor
  · intro i hi hm hprev
    rw [check_connection, if_neg hcond,
      checkScan_first_match ip port rules i hi hm hprev,
      strTrunc_valid_ip ip hip]
  · intro hall
    rw [check_connection, if_neg hcond, checkScan_none ip port rules hall]

/-- C1 witness: the theorem applied to a one-rule store and a matching
connection. -/
theorem check_connection_first_match_witness :
    check_connection [⟨"10.0.0.1", "80", []⟩] "10.0.0.1" 80 =
      ([⟨"10.0.0.1", "80", [⟨"10.0.0.1", 80⟩]⟩], "Connection accepted") :=
  (check_connection_first_match [⟨"10.0.0.1", "80", []⟩] "10.0.0.1" 80
    (by decide) (by decide) (by decide)).1 0 (by decide) (by decide)
    (fun j hj => absurd hj (Nat.not_lt_zero j))

theorem deleteScan_first_match (ipr pr : String) :
    ∀ (rules : List FirewallRule) (i : Nat) (hi : i < rules.length),
      ((rules.get ⟨i, hi⟩).ip_range = ipr ∧
        (rules.get ⟨i, hi⟩).port_range = pr) →
      (∀ (j : Nat) (hj : j < i),
        ¬ ((rules.get ⟨j, Nat.lt_trans hj hi⟩).ip_range = ipr ∧
           (rules.get ⟨j, Nat.lt_trans hj hi⟩).port_range = pr)) →
      deleteScan ipr pr rules = some (rules.eraseIdx i) := by
  intro rules
  induction rules with
  | nil => intro i hi; exact absurd hi (by simp)
  | cons r rs ih =>
    intro i hi hm hprev
    cases i with
    | zero =>
      have hm' : r.ip_range = ipr ∧ r.port_range = pr := hm
      have hb : (r.ip_range == ipr && r.port_range == pr) = true := by
        simp [hm'.1, hm'.2]
      rw [deleteScan, if_pos hb]
      rfl
    | succ n =>
      have h0 : ¬ (r.ip_range = ipr ∧ r.port_range = pr) :=
        hprev 0 (Nat.succ_pos n)
      have hb : ¬ ((r.ip_range == ipr && r.port_range == pr) = true) := by
        simpa using h0
      have hi' : n < rs.length := Nat.lt_of_succ_lt_succ hi
      rw [deleteScan, if_neg hb,
        ih n hi' hm (fun j hj => hprev (j + 1) (Nat.succ_lt_succ hj))]
      rfl

theorem deleteScan_none (ipr pr : String) :
    ∀ rules : List FirewallRule,
      (∀ r ∈ rules, ¬ (r.ip_range = ipr ∧ r.port_range = pr)) →
      deleteScan ipr pr rules = none := by
  intro rules
  induction rules with
  | nil => intro _; rfl
  | cons r rs ih =>
    intro h
    have h0 := h r (List.mem_cons_self r rs)
    have hb : ¬ ((r.ip_range == ipr && r.port_range == pr) = true) := by
      simpa using h0
    rw [deleteScan, if_neg hb,
      ih (fun x hx => h x (List.mem_cons_of_mem r hx))]
    rfl

/-- C3: `delete_rule` answers the literal `"Rule invalid"` (distinct from
`add_rule`'s `"Invalid rule"`) on a malformed range and leaves the store
unchanged; on an exact two-field match it removes that rule by compaction
(`eraseIdx`, preserving the survivors' relative order) and answers
`"Rule deleted"`; with no match the store is unchanged and the answer is
`"Rule not found"`. -/
theorem delete_rule_compaction (rules : List FirewallRule)
    (ipr pr : String) :
    ("Rule invalid" : String) ≠ "Invalid rule" ∧
    ((is_valid_ip_range ipr = false ∨ is_valid_port_range pr = false) →
      delete_rule rules ipr pr = (rules, "Rule invalid")) ∧
    (is_valid_ip_range ipr = true → is_valid_port_range pr = true →
      ∀ (i : Nat) (hi : i < rules.length),
        ((rules.get ⟨i, hi⟩).ip_range = ipr ∧
          (rules.get ⟨i, hi⟩).port_range = pr) →
        (∀ (j : Nat) (hj : j < i),
          ¬ ((rules.get ⟨j, Nat.lt_trans hj hi⟩).ip_range = ipr ∧
             (rules.get ⟨j, Nat.lt_trans hj hi⟩).port_range = pr)) →
        delete_rule rules ipr pr = (rules.eraseIdx i, "Rule deleted")) ∧
    (is_valid_ip_range ipr = true → is_valid_port_range pr = true →
      (∀ r ∈ rules, ¬ (r.ip_range = ipr ∧ r.port_range = pr)) →
      delete_rule rules ipr pr = (rules, "Rule not found")) := by
  refine ⟨by decide, ?_, ?_, ?_⟩
  · intro h
    have hc : (!(is_valid_ip_range ipr) || !(is_valid_port_range pr))
        = true := by
      rcases h with h | h <;> simp [h]
    rw [delete_rule, if_pos hc]
  · intro hv1 hv2 i hi hm hprev
    have hc : ¬ ((!(is_valid_ip_range ipr) || !(is_valid_port_range pr))
        = true) := by
      simp [hv1, hv2]
    rw [delete_rule, if_neg hc,
      deleteScan_first_match ipr pr rules i hi hm hprev]
  · intro hv1 hv2 hall
    have hc : ¬ ((!(is_valid_ip_range ipr) || !(is_valid_port_range pr))
        = true) := by
      simp [hv1, hv2]
    rw [delete_rule, if_neg hc, deleteScan_none ipr pr rules hall]

/-- C3 witness: the theorem applied to a two-rule store, deleting the
first rule. -/
theorem delete_rule_compaction_witness :
    delete_rule [⟨"10.0.0.1", "80", []⟩, ⟨"10.0.0.2", "81", []⟩]
        "10.0.0.1" "80" =
      ([⟨"10.0.0.2", "81", []⟩], "Rule deleted") :=
  (delete_rule_compaction
      [⟨"10.0.0.1", "80", []⟩, ⟨"10.0.0.2", "81", []⟩]
      "10.0.0.1" "80").2.2.1 (by decide) (by decide) 0 (by decide)
    (by exact ⟨rfl, rfl⟩) (fun j hj => absurd hj (Nat.not_lt_zero j))

/-- C9: an invalid address or out-of-range port makes `check_connection`
answer `"Illegal IP address or port specified"` and leave the store
untouched; `"256.1.1.1"`, `"not.an.ip"` and `"192.168.1"` are all
invalid addresses. -/
theorem check_connection_illegal_input (rules : List FirewallRule)
    (ip : String) (port : Int)
    (h : is_valid_ip ip = false ∨ port < 0 ∨ port > 65535) :
    check_connection rules ip port =
      (rules, "Illegal IP address or port specified") ∧
    is_valid_ip "256.1.1.1" = false ∧
    is_valid_ip "not.an.ip" = false ∧
    is_valid_ip "192.168.1" = false := by
  refine ⟨?_, by decide, by decide, by decide⟩
  have hc : (!(is_valid_ip ip) || decide (port < 0) ||
      decide (port > 65535)) = true := by
    rcases h with h | h | h <;> simp [h]
  rw [check_connection, if_pos hc]

/-- C9 witness: the theorem applied at the empty store, `"256.1.1.1"`,
port 80. -/
theorem check_connection_illegal_input_witness :
    check_connection [] "256.1.1.1" 80 =
      ([], "Illegal IP address or port specified") :=
  (check_connection_illegal_input [] "256.1.1.1" 80
    (Or.inl (by decide))).1

/-! ### Store invariants -/

theorem scanToken_length (w : Nat) (cs t rest : List Char)
    (h : scanToken w cs = some (t, rest)) : t.length ≤ w := by
  rw [scanToken] at h
  split at h
  · exact absurd h (by simp)
  · have ht : t = ((cs.dropWhile isSpace).takeWhile
        (fun c => !(isSpace c))).take w := by
      have := (Option.some.injEq _ _).mp h
      exact (congrArg Prod.fst this).symm
    rw [ht]
    exact List.length_take_le _ _

/-- The request log after one `process_request` step: append the trimmed
line when the log is under its cap and the line is not `"R"`. -/
theorem process_request_requests (st : ServerState) (r : String) :
    (process_request st r).1.requests =
      (if st.requests.length < MAX_REQUESTS &&
          !(trim (r.data.take 1023) == "R".data) then
        st.requests ++ [⟨trim (r.data.take 1023)⟩]
      else st.requests) := by
  simp only [process_request]
  split <;> (repeat' split) <;> rfl

/-- The rule store after one `process_request` step is reached by one of
the three rule-store operations (or left alone), with `A`/`D` arguments
coming from the width-limited token scan. -/
theorem process_request_preserves (P : List FirewallRule → Prop)
    (hA : ∀ rules a b, a.data.length ≤ 63 → b.data.length ≤ 15 →
        P rules → P (add_rule rules a b).1)
    (hC : ∀ rules ip p, P rules → P (check_connection rules ip p).1)
    (hD : ∀ rules a b, P rules → P (delete_rule rules a b).1)
    (st : ServerState) (r : String) (h : P st.rules) :
    P (process_request st r).1.rules := by
  have hst1 : ∀ c : Bool, ∀ reqs',
      (if c = true then { st with requests := reqs' } else st).rules
        = st.rules := by
    intro c reqs'; split <;> rfl
  simp only [process_request]
  split
  · -- A branch
    split
    · split <;> exact h
    · rename_i t1r hs1
      split
      · split <;> exact h
      · rename_i t2r hs2
        split <;>
          exact hA st.rules _ _
            (scanToken_length 63 _ _ _ hs1) (scanToken_length 15 _ _ _ hs2) h
  · split
    · -- C branch
      split
      · split <;> exact h
      · rename_i t1r hs1
        split
        · split <;> exact h
        · split <;> exact hC st.rules _ _ h
    · split
      · -- D branch
        split
        · split <;> exact h
        · rename_i t1r hs1
          split
          · split <;> exact h
          · split <;> exact hD st.rules _ _ h
      · split
        · split <;> exact h
        · split
          · split <;> exact h
          · split <;> exact h

theorem foldl_rules_inv (P : List FirewallRule → Prop)
    (hstep : ∀ st r, P st.rules → P (process_request st r).1.rules) :
    ∀ (reqs : List String) (st : ServerState), P st.rules →
      P (reqs.foldl (fun st r => (process_request st r).1) st).rules := by
  intro reqs
  induction reqs with
  | nil => intro st h; exact h
  | cons r rest ih => intro st h; exact ih _ (hstep st r h)

theorem foldl_requests_inv (P : List String → Prop)
    (hstep : ∀ st r, P st.requests → P (process_request st r).1.requests) :
    ∀ (reqs : List String) (st : ServerState), P st.requests →
      P (reqs.foldl (fun st r => (process_request st r).1) st).requests := by
  intro reqs
  induction reqs with
  | nil => intro st h; exact h
  | cons r rest ih => intro st h; exact ih _ (hstep st r h)

theorem checkScan_map_key (ip : String) (p : Int) :
    ∀ (rules rules' : List FirewallRule),
      checkScan ip p rules = some rules' →
      rules'.map ruleKey = rules.map ruleKey := by
  intro rules
  induction rules with
  | nil => intro rules' h; exact absurd h (by simp [checkScan])
  | cons r rs ih =>
    intro rules' h
    rw [checkScan] at h
    split at h
    · obtain rfl := (Option.some.injEq _ _).mp h
      simp [ruleKey]
    · cases hsc : checkScan ip p rs with
      | none => rw [hsc] at h; exact absurd h (by simp)
      | some rs' =>
        rw [hsc] at h
        obtain rfl := (Option.some.injEq _ _).mp h
        simp [ih rs' hsc]

theorem deleteScan_sublist (ipr pr : String) :
    ∀ (rules rules' : List FirewallRule),
      deleteScan ipr pr rules = some rules' →
      List.Sublist rules' rules := by
  intro rules
  induction rules with
  | nil => intro rules' h; exact absurd h (by simp [deleteScan])
  | cons r rs ih =>
    intro rules' h
    rw [deleteScan] at h
    split at h
    · obtain rfl := (Option.some.injEq _ _).mp h
      exact List.sublist_cons_self r rs
    · cases hsc : deleteScan ipr pr rs with
      | none => rw [hsc] at h; exact absurd h (by simp)
      | some rs' =>
        rw [hsc] at h
        obtain rfl := (Option.some.injEq _ _).mp h
        exact List.Sublist.cons₂ r (ih rs' hsc)

theorem add_rule_storeInv (rules : List FirewallRule) (a b : String)
    (ha : a.data.length ≤ 63) (hb : b.data.length ≤ 15)
    (h : storeInv rules) : storeInv (add_rule rules a b).1 := by
  rw [add_rule]
  split
  · exact h
  · split
    · exact h
    · rename_i hval hdup
      rw [strTrunc_eq_self 63 a ha, strTrunc_eq_self 15 b hb]
      constructor
      · rw [List.map_append]
        rw [List.nodup_append]
        refine ⟨h.1, List.nodup_singleton _, ?_⟩
        intro x hx hx2
        rcases List.mem_singleton.mp (by simpa using hx2) with rfl
        obtain ⟨r0, hr0, hk⟩ := List.mem_map.mp hx
        apply hdup
        rw [List.any_eq_true]
        refine ⟨r0, hr0, ?_⟩
        have e1 : r0.ip_range = a := congrArg Prod.fst hk
        have e2 : r0.port_range = b := congrArg Prod.snd hk
        simp [e1, e2]
      · intro r hr
        rcases List.mem_append.mp hr with hm | hm
        · exact h.2 r hm
        · rcases List.mem_singleton.mp hm with rfl
          exact ⟨ha, hb⟩

theorem check_connection_storeInv (rules : List FirewallRule)
    (ip : String) (p : Int)
    (h : storeInv rules) : storeInv (check_connection rules ip p).1 := by
  rw [check_connection]
  split
  · exact h
  · cases hsc : checkScan ip p rules with
    | none => exact h
    | some rs' =>
      have hk := checkScan_map_key ip p rules rs' hsc
      refine ⟨by rw [hk]; exact h.1, ?_⟩
      intro r hr
      have hmem : ruleKey r ∈ rules.map ruleKey := by
        rw [← hk]
        exact List.mem_map_of_mem ruleKey hr
      obtain ⟨r0, hr0, hkey⟩ := List.mem_map.mp hmem
      have e1 : r0.ip_range = r.ip_range := congrArg Prod.fst hkey
      have e2 : r0.port_range = r.port_range := congrArg Prod.snd hkey
      have := h.2 r0 hr0
      rw [e1, e2] at this
      exact this

theorem delete_rule_storeInv (rules : List FirewallRule) (a b : String)
    (h : storeInv rules) : storeInv (delete_rule rules a b).1 := by
  rw [delete_rule]
  split
  · exact h
  · cases hsc : deleteScan a b rules with
    | none => exact h
    | some rs' =>
      have hsub := deleteScan_sublist a b rules rs' hsc
      exact ⟨h.1.sublist (hsub.map ruleKey),
        fun r hr => h.2 r (hsub.subset hr)⟩

theorem add_rule_goodState (rules : List FirewallRule) (a b : String)
    (h : goodState rules) : goodState (add_rule rules a b).1 := by
  rw [add_rule]
  split
  · exact h
  · split
    · exact h
    · intro r hr
      rcases List.mem_append.mp hr with hm | hm
      · exact h r hm
      · rcases List.mem_singleton.mp hm with rfl
        intro q hq
        exact absurd hq (List.not_mem_nil q)

theorem checkScan_goodState (ip : String) (p : Int)
    (hip : is_valid_ip ip = true) (h0 : 0 ≤ p) (h65 : p ≤ 65535) :
    ∀ (rules rules' : List FirewallRule),
      checkScan ip p rules = some rules' →
      goodState rules → goodState rules' := by
  intro rules
  induction rules with
  | nil => intro rules' h; exact absurd h (by simp [checkScan])
  | cons r rs ih =>
    intro rules' h hg
    rw [checkScan] at h
    split at h
    · rename_i hmatch
      obtain rfl := (Option.some.injEq _ _).mp h
      intro r' hr'
      rcases List.mem_cons.mp hr' with rfl | hm
      · intro q hq
        rcases List.mem_append.mp hq with hq1 | hq2
        · exact hg r (List.mem_cons_self r rs) q hq1
        · rcases List.mem_singleton.mp hq2 with rfl
          rw [ruleMatches, Bool.and_eq_true] at hmatch
          rw [strTrunc_valid_ip ip hip]
          exact ⟨hip, h0, h65, hmatch.1, hmatch.2⟩
      · exact hg r' (List.mem_cons_of_mem r hm)
    · cases hsc : checkScan ip p rs with
      | none => rw [hsc] at h; exact absurd h (by simp)
      | some rs' =>
        rw [hsc] at h
        obtain rfl := (Option.some.injEq _ _).mp h
        have hg' : goodState rs' :=
          ih rs' hsc (fun x hx => hg x (List.mem_cons_of_mem r hx))
        intro r' hr'
        rcases List.mem_cons.mp hr' with rfl | hm
        · exact hg r' (List.mem_cons_self r' rs)
        · exact hg' r' hm

theorem check_connection_goodState (rules : List FirewallRule)
    (ip : String) (p : Int)
    (h : goodState rules) : goodState (check_connection rules ip p).1 := by
  rw [check_connection]
  split
  · exact h
  · rename_i hcond
    have hc : is_valid_ip ip = true ∧ 0 ≤ p ∧ p ≤ 65535 := by
      simp only [Bool.or_eq_true, Bool.not_eq_true', decide_eq_true_eq,
        not_or] at hcond
      refine ⟨?_, ?_, ?_⟩
      · have := hcond.1.1
        revert this
        cases is_valid_ip ip <;> simp
      · omega
      · omega
    cases hsc : checkScan ip p rules with
    | none => exact h
    | some rs' =>
      exact checkScan_goodState ip p hc.1 hc.2.1 hc.2.2 rules rs' hsc h

theorem delete_rule_goodState (rules : List FirewallRule) (a b : String)
    (h : goodState rules) : goodState (delete_rule rules a b).1 := by
  rw [delete_rule]
  split
  · exact h
  · cases hsc : deleteScan a b rules with
    | none => exact h
    | some rs' =>
      exact fun r hr =>
        h r ((deleteScan_sublist a b rules rs' hsc).subset hr)

theorem storeInv_step (st : ServerState) (r : String)
    (h : storeInv st.rules) : storeInv (process_request st r).1.rules :=
  process_request_preserves storeInv add_rule_storeInv
    (fun rules ip p h => check_connection_storeInv rules ip p h)
    (fun rules a b h => delete_rule_storeInv rules a b h) st r h

theorem goodState_step (st : ServerState) (r : String)
    (h : goodState st.rules) : goodState (process_request st r).1.rules :=
  process_request_preserves goodState
    (fun rules a b _ _ h => add_rule_goodState rules a b h)
    (fun rules ip p h => check_connection_goodState rules ip p h)
    (fun rules a b h => delete_rule_goodState rules a b h) st r h

/-- C2: `add_rule` leaves the store untouched on an invalid range
(`"Invalid rule"`) and on an exact duplicate (`"Rule already exists"`),
and otherwise appends a single rule with empty history
(`"Rule added"`); consequently every store reachable by request
processing holds at most one rule per `(ip_range, port_range)` pair. -/
theorem add_rule_validation_and_uniqueness (rules : List FirewallRule)
    (ipr pr : String) (reqs : List String) :
    ((is_valid_ip_range ipr = false ∨ is_valid_port_range pr = false) →
      add_rule rules ipr pr = (rules, "Invalid rule")) ∧
    (is_valid_ip_range ipr = true → is_valid_port_range pr = true →
      (∃ r ∈ rules, r.ip_range = ipr ∧ r.port_range = pr) →
      add_rule rules ipr pr = (rules, "Rule already exists")) ∧
    (is_valid_ip_range ipr = true → is_valid_port_range pr = true →
      (∀ r ∈ rules, ¬ (r.ip_range = ipr ∧ r.port_range = pr)) →
      add_rule rules ipr pr =
        (rules ++ [⟨strTrunc 63 ipr, strTrunc 15 pr, []⟩], "Rule added")) ∧
    ((runRequests reqs).rules.map ruleKey).Nodup := by
  refine ⟨?_, ?_, ?_, ?_⟩
  · intro h
    have hc : (!(is_valid_ip_range ipr) || !(is_valid_port_range pr))
        = true := by
      rcases h with h | h <;> simp [h]
    rw [add_rule, if_pos hc]
  · intro hv1 hv2 hex
    have hc : ¬ ((!(is_valid_ip_range ipr) || !(is_valid_port_range pr))
        = true) := by
      simp [hv1, hv2]
    have hany : (rules.any fun r =>
        r.ip_range == ipr && r.port_range == pr) = true := by
      rw [List.any_eq_true]
      obtain ⟨r, hr, h1, h2⟩ := hex
      exact ⟨r, hr, by simp [h1, h2]⟩
    rw [add_rule, if_neg hc, if_pos hany]
  · intro hv1 hv2 hall
    have hc : ¬ ((!(is_valid_ip_range ipr) || !(is_valid_port_range pr))
        = true) := by
      simp [hv1, hv2]
    have hany : ¬ ((rules.any fun r =>
        r.ip_range == ipr && r.port_range == pr) = true) := by
      rw [List.any_eq_true]
      rintro ⟨r, hr, hb⟩
      rw [Bool.and_eq_true, beq_iff_eq, beq_iff_eq] at hb
      exact hall r hr hb
    rw [add_rule, if_neg hc, if_neg hany]
  · exact (foldl_rules_inv storeInv storeInv_step reqs initState
      ⟨List.nodup_nil, fun r hr => absurd hr (List.not_mem_nil r)⟩).1

/-- C2 witness: the theorem's append case at the empty store, and its
uniqueness invariant after a concrete duplicate-add sequence. -/
theorem add_rule_validation_and_uniqueness_witness :
    add_rule [] "1.1.1.1" "80" =
      ([⟨"1.1.1.1", "80", []⟩], "Rule added") ∧
    (((runRequests ["A 1.1.1.1 80", "A 1.1.1.1 80"]).rules.map
        ruleKey).Nodup) :=
  ⟨(add_rule_validation_and_uniqueness [] "1.1.1.1" "80" []).2.2.1
      (by decide) (by decide) (fun r hr => absurd hr (List.not_mem_nil r)),
    (add_rule_validation_and_uniqueness [] "1.1.1.1" "80"
      ["A 1.1.1.1 80", "A 1.1.1.1 80"]).2.2.2⟩

/-- C10: in every state reachable by request processing, each recorded
query `(ip, port)` is a valid address with `0 ≤ port ≤ 65535` that
matches its rule's `ip_range` and `port_range`; every single request
step preserves this. -/
theorem query_history_wellformed :
    (∀ (st : ServerState) (r : String),
      goodState st.rules → goodState (process_request st r).1.rules) ∧
    (∀ reqs : List String, goodState (runRequests reqs).rules) := by
  refine ⟨goodState_step, ?_⟩
  intro reqs
  exact foldl_rules_inv goodState goodState_step reqs initState
    (fun r hr => absurd hr (List.not_mem_nil r))

/-- C10 witness: the preservation part applied to a concrete state and
request. -/
theorem query_history_wellformed_witness :
    goodState (process_request ⟨[⟨"10.0.0.1", "80", []⟩], []⟩
      "C 10.0.0.1 80").1.rules :=
  query_history_wellformed.1 ⟨[⟨"10.0.0.1", "80", []⟩], []⟩
    "C 10.0.0.1 80"
    (fun r hr => by
      rcases List.mem_singleton.mp hr with rfl
      intro q hq
      exact absurd hq (List.not_mem_nil q))

/-- C6: the request log never exceeds 100 entries and never records the
exact line `"R"`; below the cap every other trimmed line is appended,
and at (or beyond) the cap nothing is added, removed or replaced; in
general a step either leaves the log alone or appends one entry. -/
theorem request_log_bounded :
    (∀ reqs : List String,
      (runRequests reqs).requests.length ≤ MAX_REQUESTS ∧
      ("R" : String) ∉ (runRequests reqs).requests) ∧
    (∀ (st : ServerState) (r : String),
      st.requests.length < MAX_REQUESTS →
      trim (r.data.take 1023) ≠ "R".data →
      (process_request st r).1.requests =
        st.requests ++ [⟨trim (r.data.take 1023)⟩]) ∧
    (∀ (st : ServerState) (r : String),
      MAX_REQUESTS ≤ st.requests.length →
      (process_request st r).1.requests = st.requests) ∧
    (∀ (st : ServerState) (r : String),
      (process_request st r).1.requests = st.requests ∨
      (process_request st r).1.requests =
        st.requests ++ [⟨trim (r.data.take 1023)⟩]) := by
  have hstep2 : ∀ (st : ServerState) (r : String),
      st.requests.length < MAX_REQUESTS →
      trim (r.data.take 1023) ≠ "R".data →
      (process_request st r).1.requests =
        st.requests ++ [⟨trim (r.data.take 1023)⟩] := by
    intro st r hlen hne
    rw [process_request_requests, if_pos]
    rw [Bool.and_eq_true]
    constructor
    · exact decide_eq_true hlen
    · rw [Bool.not_eq_eq_eq_not]
      simp only [Bool.not_true]
      rw [beq_eq_false_iff_ne]
      exact hne
  have hstep3 : ∀ (st : ServerState) (r : String),
      MAX_REQUESTS ≤ st.requests.length →
      (process_request st r).1.requests = st.requests := by
    intro st r hlen
    rw [process_request_requests, if_neg]
    rw [Bool.and_eq_true]
    rintro ⟨h1, _⟩
    rw [decide_eq_true_eq] at h1
    omega
  refine ⟨?_, hstep2, hstep3, ?_⟩
  · intro reqs
    have base : (initState.requests.length ≤ MAX_REQUESTS ∧
        ("R" : String) ∉ initState.requests) := by
      exact ⟨by simp [initState, MAX_REQUESTS], by simp [initState]⟩
    exact foldl_requests_inv
      (fun l => l.length ≤ MAX_REQUESTS ∧ ("R" : String) ∉ l)
      (fun st r h => by
        rw [process_request_requests]
        split
        · rename_i hcb
          rw [Bool.and_eq_true, decide_eq_true_eq] at hcb
          constructor
          · rw [List.length_append]
            simp only [List.length_singleton]
            omega
          · intro hmem
            rcases List.mem_append.mp hmem with hm | hm
            · exact h.2 hm
            · rcases List.mem_singleton.mp hm with he
              have : trim (r.data.take 1023) = "R".data :=
                (congrArg String.data he).symm
              have hb := hcb.2
              rw [Bool.not_eq_eq_eq_not] at hb
              simp only [Bool.not_true] at hb
              rw [beq_eq_false_iff_ne] at hb
              exact hb this
        · exact h)
      reqs initState base
  · intro st r
    rw [process_request_requests]
    split
    · exact Or.inr rfl
    · exact Or.inl rfl

/-- C6 witness: the append case of the theorem at a concrete state and
line. -/
theorem request_log_bounded_witness :
    (process_request ⟨[], []⟩ "L").1.requests = [("L" : String)] :=
  request_log_bounded.2.1 ⟨[], []⟩ "L" (by decide) (by decide)

/-- C8 counterexample: a trimmed `A` line with three argument tokens has
a malformed argument count under the claim's reading, yet the code
parses the first two tokens, invokes the Rule Store, and answers
`"Rule added"` — not `"Invalid rule format"`. -/
theorem process_request_extra_tokens_accepted :
    (process_request initState "A 1.1.1.1 80 junk").2 = "Rule added" ∧
    (process_request initState "A 1.1.1.1 80 junk").1.rules =
      [⟨"1.1.1.1", "80", []⟩] := by
  refine ⟨by decide, by decide⟩

/-- C8 (amended): an `A `/`D ` line whose remainder yields fewer than two
`sscanf` tokens (the first capped at 63 characters, the second at 15)
answers `"Invalid rule format"` without touching the rule store (tokens
beyond the second are ignored, not rejected); a trimmed line matching
none of the five command forms answers `"Illegal request"`. -/
theorem process_request_malformed_and_illegal (st : ServerState)
    (line : String) :
    (((trim (line.data.take 1023)).take 2 = ['A', ' '] ∨
        (trim (line.data.take 1023)).take 2 = ['D', ' ']) →
      (scanToken 63 ((trim (line.data.take 1023)).drop 2) = none ∨
        (∃ t1 rest2,
          scanToken 63 ((trim (line.data.take 1023)).drop 2) =
            some (t1, rest2) ∧
          scanToken 15 rest2 = none)) →
      (process_request st line).2 = "Invalid rule format" ∧
      (process_request st line).1.rules = st.rules) ∧
    ((trim (line.data.take 1023)).take 2 ≠ ['A', ' '] →
     (trim (line.data.take 1023)).take 2 ≠ ['C', ' '] →
     (trim (line.data.take 1023)).take 2 ≠ ['D', ' '] →
     trim (line.data.take 1023) ≠ ['R'] →
     trim (line.data.take 1023) ≠ ['L'] →
     (process_request st line).2 = "Illegal request") := by
  constructor
  · intro hAD hscan
    rcases hAD with hA | hD
    · rcases hscan with hs | ⟨t1, rest2, hs1, hs2⟩
      · simp only [process_request, hA, hs]
        refine ⟨rfl, ?_⟩
        split
        · split <;> rfl
        · rename_i hfalse
          exact absurd trivial hfalse
      · simp only [process_request, hA, hs1, hs2]
        refine ⟨rfl, ?_⟩
        split
        · split <;> rfl
        · rename_i hfalse
          exact absurd trivial hfalse
    · rcases hscan with hs | ⟨t1, rest2, hs1, hs2⟩
      · simp only [process_request, hD, hs]
        refine ⟨rfl, ?_⟩
        split
        · rename_i hfalse
          exact absurd hfalse (by decide)
        · split
          · rename_i hfalse
            exact absurd hfalse (by decide)
          · split
            · split <;> rfl
            · rename_i hfalse
              exact absurd trivial hfalse
      · simp only [process_request, hD, hs1, hs2]
        refine ⟨rfl, ?_⟩
        split
        · rename_i hfalse
          exact absurd hfalse (by decide)
        · split
          · rename_i hfalse
            exact absurd hfalse (by decide)
          · split
            · split <;> rfl
            · rename_i hfalse
              exact absurd trivial hfalse
  · intro hA hC hD hR hL
    simp only [process_request, if_neg hA, if_neg hC, if_neg hD,
      if_neg hR, if_neg hL]

/-- C8 witness: the `A` case of the theorem with a single argument
token. -/
theorem process_request_malformed_and_illegal_witness :
    (process_request initState "A 1.1.1.1").2 = "Invalid rule format" ∧
    (process_request initState "A 1.1.1.1").1.rules = [] :=
  (process_request_malformed_and_illegal initState "A 1.1.1.1").1
    (Or.inl (by decide))
    (Or.inr ⟨"1.1.1.1".data, [], by decide, by decide⟩)

end Firewall
